import Mathlib

/-!
Verification development for the SeetongDVR storage and streaming engine.

The Go sources are shallowly embedded: machine integers become Nat or Int
(with explicit wrapping where the code wraps), byte buffers become lists of
naturals, float64 arithmetic in the two time interpolators is modelled by
exact rationals with the Go float-to-int64 conversion modelled as truncation
toward zero, and fallible operations return Except or Option.
-/

namespace SeetongDVR

/-! ## Constants from the seetong library -/

/-- Start of the trailing frame-index region inside a 256 MiB container. -/
def TRecIndexRegionStart : ℕ := 0x0F900000

/-- Magic of each 44-byte frame-index record. -/
def TRecFrameIndexMagic : ℕ := 0x4C3D2E1F

/-- Size of a frame-index record on disk. -/
def TRecFrameIndexSize : ℕ := 44

/-- Lower bound for valid wall-clock timestamps: 2020-01-01 UTC. -/
def MinValidTimestamp : ℕ := 1577836800

def ChannelVideo1 : ℕ := 2
def ChannelAudio : ℕ := 3
def ChannelVideo2 : ℕ := 258

def FrameTypeI : ℕ := 1

def NalTrailN : ℕ := 0
def NalTrailR : ℕ := 1
def NalIDRWRadl : ℕ := 19
def NalIDRNLP : ℕ := 20
def NalVPS : ℕ := 32
def NalSPS : ℕ := 33
def NalPPS : ℕ := 34

/-! ## Data model -/

/-- SegmentRecord from the master index, embedding the Go struct. -/
structure SegmentRecord where
  fileIndex : ℤ
  channel : ℤ
  startTime : ℤ
  endTime : ℤ
  frameCount : ℤ
deriving Repr, DecidableEq

/-- FrameIndexRecord: one kept entry of a container frame index (Go uses
uint32 and uint64 fields; each field is a Nat bounded by the wordsize where
a theorem needs it). -/
structure FrameIndexRecord where
  frameType : ℕ
  channel : ℕ
  frameSeq : ℕ
  fileOffset : ℕ
  frameSize : ℕ
  timestampUs : ℕ
  unixTs : ℕ
deriving Repr, DecidableEq

/-- Well-formedness: every field fits its Go machine word. -/
def FrameIndexRecord.WF (r : FrameIndexRecord) : Prop :=
  r.frameType < 2 ^ 32 ∧ r.channel < 2 ^ 32 ∧ r.frameSeq < 2 ^ 32 ∧
  r.fileOffset < 2 ^ 32 ∧ r.frameSize < 2 ^ 32 ∧
  r.timestampUs < 2 ^ 64 ∧ r.unixTs < 2 ^ 32

instance (r : FrameIndexRecord) : Decidable r.WF := by
  unfold FrameIndexRecord.WF
  infer_instance

instance {ε α : Type} [DecidableEq ε] [DecidableEq α] : DecidableEq (Except ε α) := fun x y => by
  cases x <;> cases y
  case error.error a b =>
    exact if h : a = b then .isTrue (by rw [h]) else .isFalse (by simp [h])
  case error.ok => exact .isFalse (by simp)
  case ok.error => exact .isFalse (by simp)
  case ok.ok a b =>
    exact if h : a = b then .isTrue (by rw [h]) else .isFalse (by simp [h])

/-- VPSPosition: a byte offset of a VPS NAL plus its interpolated time. -/
structure VPSPosition where
  offset : ℤ
  time : ℤ
deriving Repr, DecidableEq

/-! ## Little-endian and big-endian byte encoding -/

/-- Encode a natural in k little-endian bytes (Go binary.LittleEndian.PutUintN). -/
def leBytes : ℕ → ℕ → List ℕ
  | 0, _ => []
  | k + 1, n => n % 256 :: leBytes k (n / 256)

/-- Decode a little-endian byte list (Go binary.LittleEndian.UintN). -/
def leVal : List ℕ → ℕ
  | [] => 0
  | b :: bs => b + 256 * leVal bs

/-- Encode a natural in k big-endian bytes (Go binary.BigEndian.PutUintN). -/
def beBytes (k n : ℕ) : List ℕ := (leBytes k n).reverse

theorem leBytes_length (k n : ℕ) : (leBytes k n).length = k := by
  induction k generalizing n with
  | zero => rfl
  | succ k ih => simp [leBytes, ih]

theorem beBytes_length (k n : ℕ) : (beBytes k n).length = k := by
  simp [beBytes, leBytes_length]

theorem leVal_leBytes (k n : ℕ) : leVal (leBytes k n) = n % 256 ^ k := by
  induction k generalizing n with
  | zero => simp [leBytes, leVal, Nat.mod_one]
  | succ k ih =>
    rw [leBytes, leVal, ih]
    have hsplit : n % 256 ^ (k + 1) = n % 256 + 256 * (n / 256 % 256 ^ k) := by
      rw [pow_succ, mul_comm (256 ^ k) 256]
      exact Nat.mod_mul
    omega

theorem leVal_leBytes_of_lt {k n : ℕ} (h : n < 256 ^ k) :
    leVal (leBytes k n) = n := by
  rw [leVal_leBytes, Nat.mod_eq_of_lt h]

/-! ## Seek/time oracle: coarse and fine interpolators

The Go code computes the fractional part in float64 and converts the result
with int64(...), which truncates toward zero; the float64 arithmetic is
modelled by exact rationals and the conversion by truncation toward zero. -/

/-- Go int64(f) conversion of a float64 value: truncation toward zero,
written with Int.tdiv (T-division truncates toward zero and the denominator
of a rational is positive) so that it evaluates inside the kernel. -/
def i64trunc (q : ℚ) : ℤ := q.num.tdiv q.den

/-- CalculatePreciseTime: coarse byte-to-time interpolation over the whole
data region (length TRecIndexRegionStart). -/
def CalculatePreciseTime (seg : SegmentRecord) (byteOffset : ℤ) : ℤ :=
  if (TRecIndexRegionStart : ℤ) ≤ 0 then seg.startTime
  else
    let duration : ℤ := seg.endTime - seg.startTime
    let timeOffset : ℚ := (byteOffset : ℚ) / (TRecIndexRegionStart : ℚ) * (duration : ℚ)
    seg.startTime + i64trunc timeOffset

/-- The anchor scan of CalculatePreciseTimeFromIFrames: walk the list keeping
prev = the last anchor with offset ≤ target (with lookahead next); on the
first larger anchor stop, synthesising (0, seg.startTime) when no prev was
seen yet. Mirrors the Go loop, including that next is left untouched when
the matching anchor is the final element. -/
def findAnchors (seg : SegmentRecord) (targetOffset : ℤ) :
    List VPSPosition → Option VPSPosition → Option VPSPosition →
    Option VPSPosition × Option VPSPosition
  | [], prev, next => (prev, next)
  | f :: rest, prev, next =>
    if f.offset ≤ targetOffset then
      findAnchors seg targetOffset rest (some f)
        (match rest with
         | [] => next
         | g :: _ => some g)
    else
      match prev with
      | none => (some ⟨0, seg.startTime⟩, some f)
      | some _ => (prev, next)

/-- CalculatePreciseTimeFromIFrames: fine interpolation between I-frame
anchors. -/
def CalculatePreciseTimeFromIFrames (iFrames : List VPSPosition)
    (targetOffset : ℤ) (seg : SegmentRecord) : ℤ :=
  if iFrames.length = 0 then seg.startTime
  else if iFrames.length = 1 then CalculatePreciseTime seg targetOffset
  else
    match findAnchors seg targetOffset iFrames none none with
    | (none, _) => seg.startTime
    | (some prev, nextOpt) =>
      let next := nextOpt.getD ⟨(TRecIndexRegionStart : ℤ), seg.endTime⟩
      let byteRange := next.offset - prev.offset
      if byteRange ≤ 0 then prev.time
      else
        let timeRange := next.time - prev.time
        let byteOffsetInRange := targetOffset - prev.offset
        let timeOffset : ℚ := (byteOffsetInRange : ℚ) / (byteRange : ℚ) * (timeRange : ℚ)
        prev.time + i64trunc timeOffset

/-! ### Helper facts about truncation toward zero -/

theorem i64trunc_of_nonneg {q : ℚ} (h : 0 ≤ q) : i64trunc q = ⌊q⌋ := by
  rw [i64trunc, Rat.floor_def]
  have hnum : 0 ≤ q.num := Rat.num_nonneg.2 h
  have hden : 0 ≤ (q.den : ℤ) := by positivity
  exact Int.tdiv_eq_ediv hnum hden

theorem i64trunc_nonneg {q : ℚ} (h : 0 ≤ q) : 0 ≤ i64trunc q := by
  rw [i64trunc_of_nonneg h]
  exact Int.le_floor.2 (by exact_mod_cast h)

theorem i64trunc_le_of_le_int {q : ℚ} {d : ℤ} (h : q ≤ (d : ℚ)) (h0 : 0 ≤ q) :
    i64trunc q ≤ d := by
  rw [i64trunc_of_nonneg h0]
  calc ⌊q⌋ ≤ ⌊(d : ℚ)⌋ := Int.floor_le_floor h
  _ = d := Int.floor_intCast d

theorem i64trunc_zero : i64trunc 0 = 0 := by
  rw [i64trunc_of_nonneg le_rfl]
  exact Int.floor_zero

/-- Evaluation helper: truncation in terms of the numerator and denominator
of the (normalised) rational. -/
theorem i64trunc_eval {q : ℚ} {a : ℤ} {b : ℕ} (hq : q.num = a) (hd : q.den = b) :
    i64trunc q = a.tdiv b := by
  rw [i64trunc, hq, hd]

theorem i64trunc_intCast (n : ℤ) : i64trunc ((n : ℤ) : ℚ) = n := by
  rw [i64trunc, Rat.num_intCast, Rat.den_intCast, Nat.cast_one, Int.tdiv_one]

/-- Core bound for a single interpolation step: with byte offsets
o1 ≤ o ≤ o2, o1 < o2, and non-decreasing times t1 ≤ t2, the interpolated
time t1 + trunc((o - o1)/(o2 - o1) * (t2 - t1)) lies in [t1, t2]. -/
theorem interp_step_bounds {o1 o2 o t1 t2 : ℤ}
    (hb : o1 < o2) (ho1 : o1 ≤ o) (ho2 : o ≤ o2) (ht : t1 ≤ t2) :
    t1 ≤ t1 + i64trunc (((o - o1 : ℤ) : ℚ) / ((o2 - o1 : ℤ) : ℚ) * ((t2 - t1 : ℤ) : ℚ)) ∧
    t1 + i64trunc (((o - o1 : ℤ) : ℚ) / ((o2 - o1 : ℤ) : ℚ) * ((t2 - t1 : ℤ) : ℚ)) ≤ t2 := by
  set q : ℚ := ((o - o1 : ℤ) : ℚ) / ((o2 - o1 : ℤ) : ℚ) * ((t2 - t1 : ℤ) : ℚ) with hq
  have hbpos : (0 : ℚ) < ((o2 - o1 : ℤ) : ℚ) := by exact_mod_cast sub_pos.2 hb
  have hnum : (0 : ℚ) ≤ ((o - o1 : ℤ) : ℚ) := by exact_mod_cast sub_nonneg.2 ho1
  have htr : (0 : ℚ) ≤ ((t2 - t1 : ℤ) : ℚ) := by exact_mod_cast sub_nonneg.2 ht
  have hfrac : ((o - o1 : ℤ) : ℚ) / ((o2 - o1 : ℤ) : ℚ) ≤ 1 := by
    rw [div_le_one hbpos]
    exact_mod_cast sub_le_sub_right ho2 o1
  have hq0 : 0 ≤ q := mul_nonneg (div_nonneg hnum hbpos.le) htr
  have hqle : q ≤ ((t2 - t1 : ℤ) : ℚ) := by
    calc q ≤ 1 * ((t2 - t1 : ℤ) : ℚ) := mul_le_mul_of_nonneg_right hfrac htr
    _ = ((t2 - t1 : ℤ) : ℚ) := one_mul _
  constructor
  · have := i64trunc_nonneg hq0
    omega
  · have := i64trunc_le_of_le_int hqle hq0
    omega

/-! ### Claim C5: the coarse interpolator -/

/-- C5 (corrected): for a segment with end_time > start_time the coarse
interpolator stays within [start_time, end_time] for every byte offset b in
the data region, 0 ≤ b ≤ TRecIndexRegionStart. Unrestricted offsets escape
the interval (see the counterexample). -/
theorem coarse_interp_in_segment_range (seg : SegmentRecord) (b : ℤ)
    (hseg : seg.startTime < seg.endTime)
    (hb0 : 0 ≤ b) (hbL : b ≤ (TRecIndexRegionStart : ℤ)) :
    seg.startTime ≤ CalculatePreciseTime seg b ∧
    CalculatePreciseTime seg b ≤ seg.endTime := by
  have hL : ¬ ((TRecIndexRegionStart : ℤ) ≤ 0) := by norm_num [TRecIndexRegionStart]
  have key : CalculatePreciseTime seg b =
      seg.startTime + i64trunc ((b : ℚ) / ((TRecIndexRegionStart : ℕ) : ℚ) *
        ((seg.endTime - seg.startTime : ℤ) : ℚ)) := by
    simp only [CalculatePreciseTime, if_neg hL]
  rw [key]
  have hLpos : (0 : ℚ) < ((TRecIndexRegionStart : ℕ) : ℚ) := by norm_num [TRecIndexRegionStart]
  have hd : (0 : ℚ) ≤ ((seg.endTime - seg.startTime : ℤ) : ℚ) := by
    exact_mod_cast sub_nonneg.2 hseg.le
  have hfrac : (b : ℚ) / ((TRecIndexRegionStart : ℕ) : ℚ) ≤ 1 := by
    rw [div_le_one hLpos]
    exact_mod_cast hbL
  have hnum : (0 : ℚ) ≤ (b : ℚ) := by exact_mod_cast hb0
  set q : ℚ := (b : ℚ) / ((TRecIndexRegionStart : ℕ) : ℚ) *
    ((seg.endTime - seg.startTime : ℤ) : ℚ) with hqdef
  have hq0 : 0 ≤ q := mul_nonneg (div_nonneg hnum hLpos.le) hd
  have hqle : q ≤ ((seg.endTime - seg.startTime : ℤ) : ℚ) := by
    calc q ≤ 1 * ((seg.endTime - seg.startTime : ℤ) : ℚ) :=
          mul_le_mul_of_nonneg_right hfrac hd
    _ = _ := one_mul _
  have h1 := i64trunc_nonneg hq0
  have h2 := i64trunc_le_of_le_int hqle hq0
  constructor
  · omega
  · omega

/-- C5 counterexample: at byte offset 2·TRecIndexRegionStart (outside the
data region) the coarse interpolator leaves [start_time, end_time]: the
claim quantifies over every byte offset, which fails. -/
theorem coarse_interp_counterexample :
    (100 : ℤ) < 200 ∧
    CalculatePreciseTime ⟨0, 2, 100, 200, 0⟩ (2 * (TRecIndexRegionStart : ℤ)) = 300 ∧
    ¬ ((100 : ℤ) ≤ 300 ∧ (300 : ℤ) ≤ 200) := by
  refine ⟨by norm_num, ?_, by norm_num⟩
  have hL : ¬ ((TRecIndexRegionStart : ℤ) ≤ 0) := by norm_num [TRecIndexRegionStart]
  simp only [CalculatePreciseTime, if_neg hL]
  norm_num [TRecIndexRegionStart]
  rw [show (200 : ℚ) = ((200 : ℤ) : ℚ) by norm_num, i64trunc_intCast]
  norm_num

/-- Witness for coarse_interp_in_segment_range at a concrete segment and
offset. -/
theorem coarse_interp_in_segment_range_witness :
    (1766034449 : ℤ) < 1766041804 ∧
    1766034449 ≤ CalculatePreciseTime ⟨0, 2, 1766034449, 1766041804, 0⟩ 1000000 ∧
    CalculatePreciseTime ⟨0, 2, 1766034449, 1766041804, 0⟩ 1000000 ≤ 1766041804 := by
  refine ⟨by norm_num, ?_⟩
  exact coarse_interp_in_segment_range ⟨0, 2, 1766034449, 1766041804, 0⟩ 1000000
    (by norm_num) (by norm_num) (by norm_num [TRecIndexRegionStart])

/-! ### Characterising the anchor scan -/

/-- Scan step on a singleton whose offset is within the target. -/
theorem findAnchors_one_le (seg : SegmentRecord) (o : ℤ) (f : VPSPosition)
    (p nx : Option VPSPosition) (hle : f.offset ≤ o) :
    findAnchors seg o [f] p nx = (some f, nx) := by
  simp [findAnchors, hle]

/-- Scan step past an in-range anchor followed by more anchors. -/
theorem findAnchors_cons₂_le (seg : SegmentRecord) (o : ℤ) (f g : VPSPosition)
    (rest : List VPSPosition) (p nx : Option VPSPosition) (hle : f.offset ≤ o) :
    findAnchors seg o (f :: g :: rest) p nx =
      findAnchors seg o (g :: rest) (some f) (some g) := by
  simp [findAnchors, hle]

/-- Scan stop at an out-of-range head with no previous anchor. -/
theorem findAnchors_head_gt_none (seg : SegmentRecord) (o : ℤ) (f : VPSPosition)
    (rest : List VPSPosition) (nx : Option VPSPosition) (hgt : ¬ f.offset ≤ o) :
    findAnchors seg o (f :: rest) none nx = (some ⟨0, seg.startTime⟩, some f) := by
  simp [findAnchors, hgt]

/-- Scan stop at an out-of-range head with a previous anchor recorded. -/
theorem findAnchors_head_gt_some (seg : SegmentRecord) (o : ℤ) (f q : VPSPosition)
    (rest : List VPSPosition) (nx : Option VPSPosition) (hgt : ¬ f.offset ≤ o) :
    findAnchors seg o (f :: rest) (some q) nx = (some q, nx) := by
  simp [findAnchors, hgt]

/-- When every anchor offset is ≤ the target, the scan returns the final
anchor as prev; next also ends at the final anchor whenever the list has at
least two elements. -/
theorem findAnchors_all_le (seg : SegmentRecord) (o : ℤ) :
    ∀ (t : List VPSPosition) (a : VPSPosition) (p nx : Option VPSPosition),
      (∀ f ∈ t ++ [a], f.offset ≤ o) →
      findAnchors seg o (t ++ [a]) p nx =
        (some a, if t = [] then nx else some a) := by
  intro t
  induction t with
  | nil =>
    intro a p nx h
    have ha : a.offset ≤ o := h a (by simp)
    simpa using findAnchors_one_le seg o a p nx ha
  | cons b t2 ih =>
    intro a p nx h
    have hb : b.offset ≤ o := h b (by simp)
    have hrest : ∀ f ∈ t2 ++ [a], f.offset ≤ o := by
      intro f hf
      exact h f (by simp at hf ⊢; tauto)
    cases t2 with
    | nil =>
      rw [show ((b :: ([] : List VPSPosition)) ++ [a]) = b :: a :: [] from rfl,
        findAnchors_cons₂_le seg o b a [] p nx hb]
      have := findAnchors_one_le seg o a (some b) (some a)
        (h a (by simp))
      rw [this]
      simp
    | cons c t3 =>
      rw [show ((b :: c :: t3) ++ [a]) = b :: ((c :: t3) ++ [a]) from rfl]
      rw [show ((c :: t3) ++ [a]) = c :: (t3 ++ [a]) from rfl]
      rw [findAnchors_cons₂_le seg o b c (t3 ++ [a]) p nx hb]
      rw [show (c :: (t3 ++ [a])) = (c :: t3) ++ [a] from rfl]
      rw [ih a (some b) (some c) hrest]
      simp

/-- When the list splits as (t ++ [a]) ++ f :: r with every offset up to a
being ≤ the target and f strictly beyond it, the scan stops at (a, f). -/
theorem findAnchors_split (seg : SegmentRecord) (o : ℤ) :
    ∀ (t : List VPSPosition) (a f : VPSPosition) (r : List VPSPosition)
      (p nx : Option VPSPosition),
      (∀ x ∈ t ++ [a], x.offset ≤ o) → o < f.offset →
      findAnchors seg o ((t ++ [a]) ++ f :: r) p nx = (some a, some f) := by
  intro t
  induction t with
  | nil =>
    intro a f r p nx h hf
    have ha : a.offset ≤ o := h a (by simp)
    rw [show ((([] : List VPSPosition) ++ [a]) ++ f :: r) = a :: f :: r from rfl]
    rw [findAnchors_cons₂_le seg o a f r p nx ha]
    exact findAnchors_head_gt_some seg o f a r (some f) (not_le.2 hf)
  | cons b t2 ih =>
    intro a f r p nx h hf
    have hb : b.offset ≤ o := h b (by simp)
    have hrest : ∀ x ∈ t2 ++ [a], x.offset ≤ o := by
      intro x hx
      exact h x (by simp at hx ⊢; tauto)
    cases t2 with
    | nil =>
      rw [show (((b :: ([] : List VPSPosition)) ++ [a]) ++ f :: r) =
        b :: (([] ++ [a]) ++ f :: r) from rfl]
      rw [show ((([] : List VPSPosition) ++ [a]) ++ f :: r) = a :: f :: r from rfl]
      rw [findAnchors_cons₂_le seg o b a (f :: r) p nx hb]
      rw [show (a :: f :: r) = (([] : List VPSPosition) ++ [a]) ++ f :: r from rfl]
      exact ih a f r (some b) (some a) hrest hf
    | cons c t3 =>
      rw [show (((b :: c :: t3) ++ [a]) ++ f :: r) =
        b :: c :: ((t3 ++ [a]) ++ f :: r) from by simp]
      rw [findAnchors_cons₂_le seg o b c ((t3 ++ [a]) ++ f :: r) p nx hb]
      rw [show (c :: ((t3 ++ [a]) ++ f :: r)) = ((c :: t3) ++ [a]) ++ f :: r from by simp]
      exact ih a f r (some b) (some c) hrest hf

/-- Computation of the fine interpolator once the scan result is known. -/
theorem fine_interp_eq_of_findAnchors (l : List VPSPosition) (o : ℤ)
    (seg : SegmentRecord) (h0 : l.length ≠ 0) (h1 : l.length ≠ 1)
    (prev next : VPSPosition)
    (hfa : findAnchors seg o l none none = (some prev, some next)) :
    CalculatePreciseTimeFromIFrames l o seg =
      if next.offset - prev.offset ≤ 0 then prev.time
      else prev.time + i64trunc (((o - prev.offset : ℤ) : ℚ) /
        ((next.offset - prev.offset : ℤ) : ℚ) * ((next.time - prev.time : ℤ) : ℚ)) := by
  simp only [CalculatePreciseTimeFromIFrames, if_neg h0, if_neg h1, hfa]
  rfl

/-- Elements of a prefix l.take (m+1) have offsets bounded by the offset at
index m, for a list with strictly increasing offsets. -/
theorem take_offset_le (l : List VPSPosition)
    (hmono : l.Pairwise (fun a b => a.offset < b.offset))
    (m : ℕ) (hm : m < l.length) :
    ∀ x ∈ l.take (m + 1), x.offset ≤ (l.get ⟨m, hm⟩).offset := by
  intro x hx
  rcases List.mem_iff_get.mp hx with ⟨⟨i, hi⟩, rfl⟩
  have hlen : (l.take (m + 1)).length = min (m + 1) l.length := List.length_take _ _
  have hi1 : i < min (m + 1) l.length := by rw [← hlen]; exact hi
  have hi2 : i < m + 1 := lt_of_lt_of_le hi1 (min_le_left _ _)
  have hi3 : i < l.length := lt_of_lt_of_le hi1 (min_le_right _ _)
  have hval : (l.take (m + 1)).get ⟨i, hi⟩ = l.get ⟨i, hi3⟩ := by
    rw [List.get_eq_getElem, List.get_eq_getElem]
    exact (List.getElem_take' l hi3 hi2).symm
  rw [hval]
  rcases Nat.lt_or_ge i m with hlt | hge
  · exact le_of_lt (List.pairwise_iff_get.mp hmono ⟨i, hi3⟩ ⟨m, hm⟩ hlt)
  · have : i = m := by omega
    subst this
    exact le_refl _

/-- C4 (corrected): for anchors with strictly increasing offsets and at
least two entries, and a target offset between two consecutive anchors whose
times are in order (t_k ≤ t_k+1, the amendment forced by the
counterexample), the fine interpolator returns a time within
[t_k, t_k+1]. -/
theorem fine_interp_within_anchor_interval
    (l : List VPSPosition) (seg : SegmentRecord) (k : ℕ)
    (hk1 : k < l.length) (hk : k + 1 < l.length)
    (hmono : l.Pairwise (fun a b => a.offset < b.offset))
    (ht : (l.get ⟨k, hk1⟩).time ≤ (l.get ⟨k + 1, hk⟩).time)
    (o : ℤ)
    (hlo : (l.get ⟨k, hk1⟩).offset ≤ o)
    (hhi : o ≤ (l.get ⟨k + 1, hk⟩).offset) :
    (l.get ⟨k, hk1⟩).time ≤ CalculatePreciseTimeFromIFrames l o seg ∧
    CalculatePreciseTimeFromIFrames l o seg ≤ (l.get ⟨k + 1, hk⟩).time := by
  have h0 : l.length ≠ 0 := by omega
  have h1 : l.length ≠ 1 := by omega
  have hab : (l.get ⟨k, hk1⟩).offset < (l.get ⟨k + 1, hk⟩).offset :=
    List.pairwise_iff_get.mp hmono ⟨k, hk1⟩ ⟨k + 1, hk⟩
      (Fin.mk_lt_mk.mpr (Nat.lt_succ_self k))
  have htakeA : l.take (k + 1) = l.take k ++ [l.get ⟨k, hk1⟩] := by
    rw [List.take_succ, List.getElem?_eq_getElem hk1]
    simp [List.get_eq_getElem]
  by_cases hcase : o < (l.get ⟨k + 1, hk⟩).offset
  · have hall : ∀ x ∈ l.take k ++ [l.get ⟨k, hk1⟩], x.offset ≤ o := by
      intro x hx
      rw [← htakeA] at hx
      exact le_trans (take_offset_le l hmono k hk1 x hx) hlo
    have hdecomp :
        (l.take k ++ [l.get ⟨k, hk1⟩]) ++ (l.get ⟨k + 1, hk⟩) :: l.drop (k + 2) = l := by
      rw [← htakeA]
      conv_rhs => rw [← List.take_append_drop (k + 1) l]
      congr 1
      rw [List.drop_eq_getElem_cons hk]
      simp [List.get_eq_getElem]
    have hfa : findAnchors seg o l none none =
        (some (l.get ⟨k, hk1⟩), some (l.get ⟨k + 1, hk⟩)) := by
      conv_lhs => rw [← hdecomp]
      exact findAnchors_split seg o (l.take k) _ _ _ none none hall hcase
    rw [fine_interp_eq_of_findAnchors l o seg h0 h1 _ _ hfa, if_neg (by omega)]
    exact interp_step_bounds hab hlo (le_of_lt hcase) ht
  · have ho : o = (l.get ⟨k + 1, hk⟩).offset := le_antisymm hhi (not_lt.1 hcase)
    have htakeB : l.take (k + 2) = l.take (k + 1) ++ [l.get ⟨k + 1, hk⟩] := by
      rw [List.take_succ, List.getElem?_eq_getElem hk]
      simp [List.get_eq_getElem]
    have hallB : ∀ x ∈ l.take (k + 1) ++ [l.get ⟨k + 1, hk⟩], x.offset ≤ o := by
      intro x hx
      rw [← htakeB] at hx
      calc x.offset ≤ (l.get ⟨k + 1, hk⟩).offset := take_offset_le l hmono (k + 1) hk x hx
      _ = o := ho.symm
    by_cases hc2 : k + 2 < l.length
    · have hbc : (l.get ⟨k + 1, hk⟩).offset < (l.get ⟨k + 2, hc2⟩).offset :=
        List.pairwise_iff_get.mp hmono ⟨k + 1, hk⟩ ⟨k + 2, hc2⟩
          (Fin.mk_lt_mk.mpr (Nat.lt_succ_self _))
      have hoc : o < (l.get ⟨k + 2, hc2⟩).offset := by omega
      have hdecomp :
          (l.take (k + 1) ++ [l.get ⟨k + 1, hk⟩]) ++
            (l.get ⟨k + 2, hc2⟩) :: l.drop (k + 3) = l := by
        rw [← htakeB]
        conv_rhs => rw [← List.take_append_drop (k + 2) l]
        congr 1
        rw [List.drop_eq_getElem_cons hc2]
        simp [List.get_eq_getElem]
      have hfa : findAnchors seg o l none none =
          (some (l.get ⟨k + 1, hk⟩), some (l.get ⟨k + 2, hc2⟩)) := by
        conv_lhs => rw [← hdecomp]
        exact findAnchors_split seg o (l.take (k + 1)) _ _ _ none none hallB hoc
      rw [fine_interp_eq_of_findAnchors l o seg h0 h1 _ _ hfa, if_neg (by omega)]
      rw [show o - (l.get ⟨k + 1, hk⟩).offset = 0 by omega]
      simp only [Int.cast_zero, zero_div, zero_mul, i64trunc_zero, add_zero]
      exact ⟨ht, le_refl _⟩

    · have hlen2 : l.length = k + 2 := by omega
      have hdecomp : l.take (k + 1) ++ [l.get ⟨k + 1, hk⟩] = l := by
        rw [← htakeB, ← hlen2, List.take_length]
      have htne : l.take (k + 1) ≠ [] := by
        intro hcon
        rcases List.take_eq_nil_iff.mp hcon with hcon1 | hcon2
        · omega
        · rw [hcon2] at hk
          simp at hk
      have hfa : findAnchors seg o l none none =
          (some (l.get ⟨k + 1, hk⟩), some (l.get ⟨k + 1, hk⟩)) := by
        conv_lhs => rw [← hdecomp]
        rw [findAnchors_all_le seg o (l.take (k + 1)) (l.get ⟨k + 1, hk⟩) none none hallB,
          if_neg htne]
      rw [fine_interp_eq_of_findAnchors l o seg h0 h1 _ _ hfa]
      rw [if_pos (show (l.get ⟨k + 1, hk⟩).offset - (l.get ⟨k + 1, hk⟩).offset ≤ 0 by omega)]
      exact ⟨ht, le_refl _⟩

/-- C4 counterexample: with anchor times decreasing, [t_k, t_k+1] is empty
while the code still returns a value, so the claim as stated (with no
condition on the anchor times) fails at this input: anchors (0,10),(100,5),
target 50, result 8, and 8 does not lie in [10, 5]. -/
theorem fine_interp_counterexample :
    ([(⟨0, 10⟩ : VPSPosition), ⟨100, 5⟩].Pairwise (fun a b => a.offset < b.offset)) ∧
    (0 : ℤ) ≤ 50 ∧ (50 : ℤ) ≤ 100 ∧
    CalculatePreciseTimeFromIFrames [⟨0, 10⟩, ⟨100, 5⟩] 50 ⟨0, 2, 0, 1000, 0⟩ = 8 ∧
    ¬ ((10 : ℤ) ≤ CalculatePreciseTimeFromIFrames [⟨0, 10⟩, ⟨100, 5⟩] 50 ⟨0, 2, 0, 1000, 0⟩ ∧
       CalculatePreciseTimeFromIFrames [⟨0, 10⟩, ⟨100, 5⟩] 50 ⟨0, 2, 0, 1000, 0⟩ ≤ 5) := by
  have hfa : findAnchors ⟨0, 2, 0, 1000, 0⟩ 50 [⟨0, 10⟩, ⟨100, 5⟩] none none =
      (some ⟨0, 10⟩, some ⟨100, 5⟩) := by decide
  have hval : CalculatePreciseTimeFromIFrames [⟨0, 10⟩, ⟨100, 5⟩] 50 ⟨0, 2, 0, 1000, 0⟩ = 8 := by
    rw [fine_interp_eq_of_findAnchors _ _ _ (by decide) (by decide) _ _ hfa]
    rw [if_neg (by decide)]
    norm_num
    rw [i64trunc_eval (show (-(5 / 2) : ℚ).num = -5 by norm_num)
      (show (-(5 / 2) : ℚ).den = 2 by norm_num)]
    decide
  refine ⟨by decide, by norm_num, by norm_num, hval, ?_⟩
  rw [hval]
  omega

/-- Witness for fine_interp_within_anchor_interval at the concrete anchors
(0,100),(100,200), target offset 50. -/
theorem fine_interp_within_anchor_interval_witness :
    (100 : ℤ) ≤ CalculatePreciseTimeFromIFrames [⟨0, 100⟩, ⟨100, 200⟩] 50 ⟨0, 2, 0, 1000, 0⟩ ∧
    CalculatePreciseTimeFromIFrames [⟨0, 100⟩, ⟨100, 200⟩] 50 ⟨0, 2, 0, 1000, 0⟩ ≤ 200 := by
  have h := fine_interp_within_anchor_interval [⟨0, 100⟩, ⟨100, 200⟩] ⟨0, 2, 0, 1000, 0⟩ 0
    (by norm_num) (by norm_num) (by decide) (by decide) 50 (by decide) (by decide)
  simpa using h

/-! ## Persistent mmap caches (.sidx frame-index caches and .vpos VPS caches)

A cache file is modelled as its byte list. The current hash of the source
container (Go getFileHash, reading basename + mtime + first 4 KiB) is an
explicit 16-byte parameter: the path of the cache file is derived from it,
and the question settled here is whether each loader re-verifies it. -/

/-- Magic "SIDX" of a frame-index cache. -/
def CacheMagicBytes : List ℕ := [0x53, 0x49, 0x44, 0x58]

def CacheVersion : ℕ := 2

def CacheHeaderSize : ℕ := 32

/-- Size of one record in the cache: the in-memory Go layout of
FrameIndexRecord (five u32 fields, 4 bytes alignment padding, u64, u32,
4 bytes tail padding). -/
def frameIndexRecordSize : ℕ := 40

/-- The native in-memory layout of a FrameIndexRecord as written raw by
SaveMmapCache (Go writes the records slice memory verbatim; padding bytes
are zero). -/
def recordBytes (r : FrameIndexRecord) : List ℕ :=
  leBytes 4 r.frameType ++ leBytes 4 r.channel ++ leBytes 4 r.frameSeq ++
  leBytes 4 r.fileOffset ++ leBytes 4 r.frameSize ++ [0, 0, 0, 0] ++
  leBytes 8 r.timestampUs ++ leBytes 4 r.unixTs ++ [0, 0, 0, 0]

/-- Reading one record back from its 40 cache bytes at the Go field
offsets 0, 4, 8, 12, 16, 24, 32. -/
def decodeCacheRecord (bs : List ℕ) : FrameIndexRecord :=
  { frameType := leVal (bs.take 4)
    channel := leVal ((bs.drop 4).take 4)
    frameSeq := leVal ((bs.drop 8).take 4)
    fileOffset := leVal ((bs.drop 12).take 4)
    frameSize := leVal ((bs.drop 16).take 4)
    timestampUs := leVal ((bs.drop 24).take 8)
    unixTs := leVal ((bs.drop 32).take 4) }

/-- SaveMmapCache: header (magic, version, count, hash, reserved) followed
by the raw records; writes nothing for an empty records slice. -/
def SaveMmapCache (records : List FrameIndexRecord) (fileHash : List ℕ) :
    Option (List ℕ) :=
  if records.length = 0 then none
  else some (CacheMagicBytes ++ leBytes 4 CacheVersion ++ leBytes 4 records.length ++
    fileHash ++ [0, 0, 0, 0] ++ (records.map recordBytes).flatten)

/-- LoadMmapCache: size, magic and version checks, then a zero-copy view of
count records. The current container hash parameter is deliberately ignored:
the Go loader does not re-verify the source file hash on read. -/
def LoadMmapCache (data : List ℕ) (curHash : List ℕ) :
    Except String (List FrameIndexRecord) :=
  if data.length < CacheHeaderSize then .error "cache file too small"
  else if data.take 4 ≠ CacheMagicBytes then .error "invalid cache magic"
  else if leVal ((data.drop 4).take 4) ≠ CacheVersion then .error "cache version mismatch"
  else
    let count := leVal ((data.drop 8).take 4)
    if data.length < CacheHeaderSize + count * frameIndexRecordSize then
      .error "cache file truncated"
    else
      .ok ((List.range count).map fun i =>
        decodeCacheRecord ((data.drop (CacheHeaderSize + i * frameIndexRecordSize)).take
          frameIndexRecordSize))

/-- Magic "VPOS" of a VPS-position cache. -/
def VPSCacheMagicBytes : List ℕ := [0x56, 0x50, 0x4F, 0x53]

def VPSCacheVersion : ℕ := 1

/-- SaveVPSCache: header followed by u32 offsets; nothing for an empty
position list. -/
def SaveVPSCache (positions : List ℕ) (fileHash : List ℕ) : Option (List ℕ) :=
  if positions.length = 0 then none
  else some (VPSCacheMagicBytes ++ leBytes 4 VPSCacheVersion ++
    leBytes 4 positions.length ++ fileHash ++ [0, 0, 0, 0] ++
    (positions.map (leBytes 4)).flatten)

/-- LoadVPSCache: size, magic and version checks, then — unlike the
frame-index loader — a comparison of the stored hash against the freshly
computed hash of the source container, then the size check and the reads. -/
def LoadVPSCache (data : List ℕ) (curHash : List ℕ) : Except String (List ℕ) :=
  if data.length < CacheHeaderSize then .error "vps cache too small"
  else if data.take 4 ≠ VPSCacheMagicBytes then .error "invalid vps cache magic"
  else if leVal ((data.drop 4).take 4) ≠ VPSCacheVersion then .error "vps cache version mismatch"
  else if (data.drop 12).take 16 ≠ curHash then .error "vps cache hash mismatch"
  else
    let count := leVal ((data.drop 8).take 4)
    if data.length < CacheHeaderSize + count * 4 then .error "vps cache truncated"
    else .ok ((List.range count).map fun i =>
      leVal ((data.drop (CacheHeaderSize + i * 4)).take 4))

/-! ### Byte-shuffling helpers for the cache layout -/

theorem drop_leBytes4 (n : ℕ) (rest : List ℕ) :
    (leBytes 4 n ++ rest).drop 4 = rest := by
  calc (leBytes 4 n ++ rest).drop 4
      = (leBytes 4 n ++ rest).drop (leBytes 4 n).length := by rw [leBytes_length]
  _ = rest := List.drop_left _ _

theorem take_leBytes4 (n : ℕ) (rest : List ℕ) :
    (leBytes 4 n ++ rest).take 4 = leBytes 4 n := by
  calc (leBytes 4 n ++ rest).take 4
      = (leBytes 4 n ++ rest).take (leBytes 4 n).length := by rw [leBytes_length]
  _ = leBytes 4 n := List.take_left _ _

theorem drop_leBytes8 (n : ℕ) (rest : List ℕ) :
    (leBytes 8 n ++ rest).drop 8 = rest := by
  calc (leBytes 8 n ++ rest).drop 8
      = (leBytes 8 n ++ rest).drop (leBytes 8 n).length := by rw [leBytes_length]
  _ = rest := List.drop_left _ _

theorem take_leBytes8 (n : ℕ) (rest : List ℕ) :
    (leBytes 8 n ++ rest).take 8 = leBytes 8 n := by
  calc (leBytes 8 n ++ rest).take 8
      = (leBytes 8 n ++ rest).take (leBytes 8 n).length := by rw [leBytes_length]
  _ = leBytes 8 n := List.take_left _ _

theorem drop_pad4 (rest : List ℕ) : (([0, 0, 0, 0] : List ℕ) ++ rest).drop 4 = rest := rfl

theorem recordBytes_length (r : FrameIndexRecord) :
    (recordBytes r).length = frameIndexRecordSize := by
  simp [recordBytes, frameIndexRecordSize, leBytes_length]

/-- Decoding the cache layout of a well-formed record recovers the record. -/
theorem decodeCacheRecord_recordBytes (r : FrameIndexRecord) (h : r.WF) :
    decodeCacheRecord (recordBytes r) = r := by
  obtain ⟨h1, h2, h3, h4, h5, h6, h7⟩ := h
  have p32 : (2 : ℕ) ^ 32 = 256 ^ 4 := by norm_num
  have p64 : (2 : ℕ) ^ 64 = 256 ^ 8 := by norm_num
  rw [p32] at h1 h2 h3 h4 h5 h7
  rw [p64] at h6
  have hd4 : (recordBytes r).drop 4 =
      leBytes 4 r.channel ++ (leBytes 4 r.frameSeq ++ (leBytes 4 r.fileOffset ++
        (leBytes 4 r.frameSize ++ ([0, 0, 0, 0] ++ (leBytes 8 r.timestampUs ++
          (leBytes 4 r.unixTs ++ [0, 0, 0, 0])))))) := by
    rw [recordBytes]
    simp only [List.append_assoc]
    exact drop_leBytes4 _ _
  have hd8 : (recordBytes r).drop 8 =
      leBytes 4 r.frameSeq ++ (leBytes 4 r.fileOffset ++
        (leBytes 4 r.frameSize ++ ([0, 0, 0, 0] ++ (leBytes 8 r.timestampUs ++
          (leBytes 4 r.unixTs ++ [0, 0, 0, 0]))))) := by
    rw [show (8 : ℕ) = 4 + 4 from rfl, ← List.drop_drop, hd4]
    exact drop_leBytes4 _ _
  have hd12 : (recordBytes r).drop 12 =
      leBytes 4 r.fileOffset ++ (leBytes 4 r.frameSize ++
        ([0, 0, 0, 0] ++ (leBytes 8 r.timestampUs ++
          (leBytes 4 r.unixTs ++ [0, 0, 0, 0])))) := by
    rw [show (12 : ℕ) = 8 + 4 from rfl, ← List.drop_drop, hd8]
    exact drop_leBytes4 _ _
  have hd16 : (recordBytes r).drop 16 =
      leBytes 4 r.frameSize ++ ([0, 0, 0, 0] ++ (leBytes 8 r.timestampUs ++
        (leBytes 4 r.unixTs ++ [0, 0, 0, 0]))) := by
    rw [show (16 : ℕ) = 12 + 4 from rfl, ← List.drop_drop, hd12]
    exact drop_leBytes4 _ _
  have hd20 : (recordBytes r).drop 20 =
      ([0, 0, 0, 0] : List ℕ) ++ (leBytes 8 r.timestampUs ++
        (leBytes 4 r.unixTs ++ [0, 0, 0, 0])) := by
    rw [show (20 : ℕ) = 16 + 4 from rfl, ← List.drop_drop, hd16]
    exact drop_leBytes4 _ _
  have hd24 : (recordBytes r).drop 24 =
      leBytes 8 r.timestampUs ++ (leBytes 4 r.unixTs ++ [0, 0, 0, 0]) := by
    rw [show (24 : ℕ) = 20 + 4 from rfl, ← List.drop_drop, hd20]
    exact drop_pad4 _
  have hd32 : (recordBytes r).drop 32 =
      leBytes 4 r.unixTs ++ ([0, 0, 0, 0] : List ℕ) := by
    rw [show (32 : ℕ) = 24 + 8 from rfl, ← List.drop_drop, hd24]
    exact drop_leBytes8 _ _
  have ht0 : (recordBytes r).take 4 = leBytes 4 r.frameType := by
    rw [recordBytes]
    simp only [List.append_assoc]
    exact take_leBytes4 _ _
  obtain ⟨ft, ch, fs, fo, fsz, ts, ut⟩ := r
  simp only [decodeCacheRecord, ht0, hd4, hd8, hd12, hd16, hd24, hd32,
    take_leBytes4, take_leBytes8] at *
  simp only [leVal_leBytes_of_lt h1, leVal_leBytes_of_lt h2, leVal_leBytes_of_lt h3,
    leVal_leBytes_of_lt h4, leVal_leBytes_of_lt h5, leVal_leBytes_of_lt h6,
    leVal_leBytes_of_lt h7]

/-- Reading block i of a flat concatenation of fixed-size blocks. -/
theorem flatten_fixed_take (L : ℕ) :
    ∀ (bss : List (List ℕ)) (i : ℕ) (hlen : ∀ bs ∈ bss, bs.length = L)
      (hi : i < bss.length),
      (bss.flatten.drop (i * L)).take L = bss.get ⟨i, hi⟩ := by
  intro bss
  induction bss with
  | nil =>
    intro i _ hi
    simp at hi
  | cons b rest ih =>
    intro i hlen hi
    have hb : b.length = L := hlen b (by simp)
    cases i with
    | zero =>
      simp only [List.flatten_cons, Nat.zero_mul, List.drop_zero]
      calc (b ++ rest.flatten).take L
          = (b ++ rest.flatten).take b.length := by rw [hb]
      _ = b := List.take_left _ _
    | succ j =>
      have hrest : ∀ bs ∈ rest, bs.length = L := fun bs h => hlen bs (by simp [h])
      have hj : j < rest.length := by simpa using hi
      simp only [List.flatten_cons]
      have hdrop : (b ++ rest.flatten).drop ((j + 1) * L) = rest.flatten.drop (j * L) := by
        rw [show (j + 1) * L = b.length + j * L by rw [hb]; ring]
        exact List.drop_append _
      rw [hdrop, ih j hrest hj, List.get_cons_succ]

/-! ### C9: the frame-index cache round-trip -/

/-- C9 (confirmed): saving a non-empty records vector (per-record fields in
their machine words, a 16-byte hash, count below 2^32) and loading the cache
bytes back yields exactly the written records, whatever hash the container
has at load time. -/
theorem mmap_cache_roundtrip (records : List FrameIndexRecord) (fileHash : List ℕ)
    (hne : records ≠ []) (hcnt : records.length < 2 ^ 32)
    (hwf : ∀ r ∈ records, r.WF) (hh : fileHash.length = 16) :
    ∃ data, SaveMmapCache records fileHash = some data ∧
      ∀ curHash, LoadMmapCache data curHash = .ok records := by
  have hpos : 0 < records.length := List.length_pos.mpr hne
  have hcnt256 : records.length < 256 ^ 4 := by
    calc records.length < 2 ^ 32 := hcnt
    _ = 256 ^ 4 := by norm_num
  set body := (records.map recordBytes).flatten with hbody
  set data : List ℕ := CacheMagicBytes ++ leBytes 4 CacheVersion ++
    leBytes 4 records.length ++ fileHash ++ [0, 0, 0, 0] ++ body with hdata
  refine ⟨data, ?_, ?_⟩
  · rw [SaveMmapCache, if_neg (by omega), hdata, hbody]
  intro curHash
  have hbodylen : body.length = records.length * 40 := by
    rw [hbody, List.length_flatten]
    have hrep : (records.map recordBytes).map List.length =
        List.replicate records.length 40 := by
      rw [List.map_map, List.eq_replicate]
      refine ⟨by simp, ?_⟩
      intro b hb
      rcases List.mem_map.mp hb with ⟨r, _, rfl⟩
      simpa [frameIndexRecordSize] using recordBytes_length r
    rw [hrep, List.sum_replicate, smul_eq_mul]
  have hdatalen : data.length = 32 + records.length * 40 := by
    rw [hdata]
    simp [CacheMagicBytes, leBytes_length, hh, hbodylen]
    omega
  have hd4 : data.drop 4 = leBytes 4 CacheVersion ++
      (leBytes 4 records.length ++ (fileHash ++ ([0, 0, 0, 0] ++ body))) := by
    rw [hdata]
    simp only [CacheMagicBytes, List.append_assoc]
    rfl
  have hd8 : data.drop 8 = leBytes 4 records.length ++ (fileHash ++ ([0, 0, 0, 0] ++ body)) := by
    rw [show (8 : ℕ) = 4 + 4 from rfl, ← List.drop_drop, hd4]
    exact drop_leBytes4 _ _
  have hd12 : data.drop 12 = fileHash ++ ([0, 0, 0, 0] ++ body) := by
    rw [show (12 : ℕ) = 8 + 4 from rfl, ← List.drop_drop, hd8]
    exact drop_leBytes4 _ _
  have hd28 : data.drop 28 = ([0, 0, 0, 0] : List ℕ) ++ body := by
    rw [show (28 : ℕ) = 12 + 16 from rfl, ← List.drop_drop, hd12]
    calc (fileHash ++ ([0, 0, 0, 0] ++ body)).drop 16
        = (fileHash ++ ([0, 0, 0, 0] ++ body)).drop fileHash.length := by rw [hh]
    _ = [0, 0, 0, 0] ++ body := List.drop_left _ _
  have hd32 : data.drop 32 = body := by
    rw [show (32 : ℕ) = 28 + 4 from rfl, ← List.drop_drop, hd28]
    exact drop_pad4 _
  have hmagic : data.take 4 = CacheMagicBytes := by
    rw [hdata]
    simp only [CacheMagicBytes, List.append_assoc]
    rfl
  have hver : leVal ((data.drop 4).take 4) = CacheVersion := by
    rw [hd4, take_leBytes4]
    exact leVal_leBytes_of_lt (by norm_num [CacheVersion])
  have hcount : leVal ((data.drop 8).take 4) = records.length := by
    rw [hd8, take_leBytes4]
    exact leVal_leBytes_of_lt hcnt256
  rw [LoadMmapCache, if_neg (by simp only [hdatalen, CacheHeaderSize]; omega),
    if_neg (by rw [hmagic]; simp), if_neg (by rw [hver]; simp)]
  simp only [hcount]
  rw [if_neg (by simp only [hdatalen, CacheHeaderSize, frameIndexRecordSize]; omega)]
  congr 1
  apply List.ext_get
  · simp
  intro n h1 h2
  have hn : n < records.length := by simpa using h2
  have hnr : n < (records.map recordBytes).length := by simpa using hn
  rw [List.get_map]
  simp only [List.get_eq_getElem, List.getElem_range]
  have hdropn : data.drop (CacheHeaderSize + n * frameIndexRecordSize) =
      body.drop (n * 40) := by
    rw [show CacheHeaderSize + n * frameIndexRecordSize = 32 + n * 40 by
      simp [CacheHeaderSize, frameIndexRecordSize]]
    rw [← List.drop_drop, hd32]
  rw [hdropn]
  rw [show frameIndexRecordSize = 40 from rfl]
  have hblocks : ∀ bs ∈ records.map recordBytes, bs.length = 40 := by
    intro bs hb
    rcases List.mem_map.mp hb with ⟨r, _, rfl⟩
    simpa [frameIndexRecordSize] using recordBytes_length r
  rw [flatten_fixed_take 40 (records.map recordBytes) n hblocks hnr, List.get_map]
  exact decodeCacheRecord_recordBytes _ (hwf _ (List.get_mem _ _ _))

/-- Witness for mmap_cache_roundtrip at a concrete one-record vector. -/
theorem mmap_cache_roundtrip_witness :
    ∃ data, SaveMmapCache [⟨1, 2, 3, 4, 5, 6, 7⟩] (List.replicate 16 0) = some data ∧
      ∀ curHash, LoadMmapCache data curHash = .ok [⟨1, 2, 3, 4, 5, 6, 7⟩] :=
  mmap_cache_roundtrip [⟨1, 2, 3, 4, 5, 6, 7⟩] (List.replicate 16 0)
    (by decide) (by norm_num) (by decide) (by decide)

/-! ### C2: what each cache loader verifies on read -/

/-- C2 (corrected): the frame-index (.sidx) loader checks magic and version
and is entirely independent of the current container hash, but the VPS
(.vpos) loader additionally re-computes and compares the container hash and
rejects a mismatch — contrary to the claim that neither loader re-verifies
the hash. -/
theorem cache_load_hash_verification :
    (∀ (data h1 h2 : List ℕ), LoadMmapCache data h1 = LoadMmapCache data h2) ∧
    (∀ (data curHash : List ℕ) (v : List FrameIndexRecord),
        LoadMmapCache data curHash = .ok v →
        data.take 4 = CacheMagicBytes ∧ leVal ((data.drop 4).take 4) = CacheVersion) ∧
    (∀ (data curHash : List ℕ) (v : List ℕ),
        LoadVPSCache data curHash = .ok v →
        data.take 4 = VPSCacheMagicBytes ∧
        leVal ((data.drop 4).take 4) = VPSCacheVersion ∧
        (data.drop 12).take 16 = curHash) := by
  refine ⟨?_, ?_, ?_⟩
  · intro data h1 h2
    rfl
  · intro data curHash v hok
    simp only [LoadMmapCache] at hok
    split_ifs at hok with hA hB hC hD
    exact ⟨not_not.mp hB, not_not.mp hC⟩
  · intro data curHash v hok
    simp only [LoadVPSCache] at hok
    split_ifs at hok with hA hB hC hD hE
    exact ⟨not_not.mp hB, not_not.mp hC, not_not.mp hD⟩

/-- C2 counterexample: a VPS cache saved under hash 0…0 loads under the same
hash but is rejected once the container hash differs — the load result does
depend on the re-computed hash. -/
theorem vps_cache_hash_counterexample :
    ∃ data, SaveVPSCache [5] (List.replicate 16 0) = some data ∧
      LoadVPSCache data (List.replicate 16 0) = .ok [5] ∧
      LoadVPSCache data (1 :: List.replicate 15 0) = .error "vps cache hash mismatch" := by
  refine ⟨_, rfl, by decide, by decide⟩

/-- Witness for cache_load_hash_verification: all three conjuncts applied at
concrete 32-byte caches with zero records. -/
theorem cache_load_hash_verification_witness :
    (LoadMmapCache
        (CacheMagicBytes ++ leBytes 4 2 ++ leBytes 4 0 ++ List.replicate 16 0 ++ [0, 0, 0, 0])
        (List.replicate 16 3) =
      LoadMmapCache
        (CacheMagicBytes ++ leBytes 4 2 ++ leBytes 4 0 ++ List.replicate 16 0 ++ [0, 0, 0, 0])
        (List.replicate 16 7)) ∧
    ((CacheMagicBytes ++ leBytes 4 2 ++ leBytes 4 0 ++ List.replicate 16 0 ++
        [0, 0, 0, 0]).take 4 = CacheMagicBytes ∧
      leVal (((CacheMagicBytes ++ leBytes 4 2 ++ leBytes 4 0 ++ List.replicate 16 0 ++
        [0, 0, 0, 0]).drop 4).take 4) = CacheVersion) ∧
    (((VPSCacheMagicBytes ++ leBytes 4 1 ++ leBytes 4 0 ++ List.replicate 16 0 ++
        [0, 0, 0, 0]).drop 12).take 16 = List.replicate 16 0) := by
  refine ⟨cache_load_hash_verification.1 _ _ _, ?_, ?_⟩
  · exact cache_load_hash_verification.2.1 _ (List.replicate 16 0) [] (by decide)
  · exact (cache_load_hash_verification.2.2 _ (List.replicate 16 0) [] (by decide)).2.2

/-! ## Container frame-index parser (ParseTRecFrameIndex) -/

/-- The little-endian bytes of the frame-index magic, as searched for by
bytes.Index. -/
def TRecFrameIndexMagicBytes : List ℕ := leBytes 4 TRecFrameIndexMagic

/-- First index at which the 4-byte magic occurs (Go bytes.Index). -/
def findMagic : List ℕ → Option ℕ
  | [] => none
  | b :: rest =>
    if (b :: rest).take 4 = TRecFrameIndexMagicBytes then some 0
    else (findMagic rest).map (· + 1)

/-- Decode one 44-byte on-disk frame-index record (fields after the leading
magic, at offsets 4, 8, 12, 16, 20, 24, 32, little-endian). -/
def decodeDiskRecord (bs : List ℕ) : FrameIndexRecord :=
  { frameType := leVal ((bs.drop 4).take 4)
    channel := leVal ((bs.drop 8).take 4)
    frameSeq := leVal ((bs.drop 12).take 4)
    fileOffset := leVal ((bs.drop 16).take 4)
    frameSize := leVal ((bs.drop 20).take 4)
    timestampUs := leVal ((bs.drop 24).take 8)
    unixTs := leVal ((bs.drop 32).take 4) }

/-- The record filter of the parser: unix timestamp after 2020-01-01 and a
recognised channel id. -/
def keepRecord (r : FrameIndexRecord) : Bool :=
  decide (MinValidTimestamp < r.unixTs ∧
    (r.channel = ChannelVideo1 ∨ r.channel = ChannelAudio ∨ r.channel = ChannelVideo2))

/-- The record-reading loop: 44-byte records until a short read or a magic
mismatch, keeping only records passing the filter. -/
def parseRecords (bs : List ℕ) : List FrameIndexRecord :=
  if h : bs.length < TRecFrameIndexSize then []
  else if leVal ((bs.take TRecFrameIndexSize).take 4) ≠ TRecFrameIndexMagic then []
  else
    let r := decodeDiskRecord (bs.take TRecFrameIndexSize)
    (if keepRecord r then [r] else []) ++ parseRecords (bs.drop TRecFrameIndexSize)
termination_by bs.length
decreasing_by simp [TRecFrameIndexSize] at h ⊢; omega

/-- Ordering by micro timestamp used for the final sort. -/
def tsLE (a b : FrameIndexRecord) : Prop := a.timestampUs ≤ b.timestampUs

instance : DecidableRel tsLE := fun a b => Nat.decLe a.timestampUs b.timestampUs

instance : IsTotal FrameIndexRecord tsLE := ⟨fun a b => Nat.le_total _ _⟩

instance : IsTrans FrameIndexRecord tsLE := ⟨fun _ _ _ hab hbc => Nat.le_trans hab hbc⟩

/-- ParseTRecFrameIndex over the container bytes: search the first 7 MiB of
the trailing region for the magic; absence is the valid empty result; else
read records from the absolute match position and sort ascending by micro
timestamp (Go sort.Slice is unstable, modelled by insertion sort — the code
promises a sorted permutation and nothing more). -/
def ParseTRecFrameIndex (container : List ℕ) : Except String (List FrameIndexRecord) :=
  let searchData := (container.drop TRecIndexRegionStart).take 0x700000
  match findMagic searchData with
  | none => .ok []
  | some idx =>
    .ok (List.insertionSort tsLE (parseRecords (container.drop (TRecIndexRegionStart + idx))))

/-- Every record emitted by the reading loop passes the filter. -/
theorem parseRecords_keep :
    ∀ (n : ℕ) (bs : List ℕ), bs.length = n → ∀ r ∈ parseRecords bs, keepRecord r = true := by
  intro n
  induction n using Nat.strong_induction_on with
  | _ n ih =>
    intro bs hbs r hr
    rw [parseRecords] at hr
    split at hr
    · simp at hr
    · split at hr
      · simp at hr
      · rcases List.mem_append.mp hr with hl | hrr
        · split at hl
          · rcases List.mem_singleton.mp hl with rfl
            assumption
          · simp at hl
        · rename_i hlen hmagic
          have hlt : (bs.drop TRecFrameIndexSize).length < n := by
            simp only [List.length_drop]
            simp [TRecFrameIndexSize] at hlen ⊢
            omega
          exact ih _ (hbs ▸ hlt) _ rfl r hrr

/-- C8 (confirmed): every record returned by the container frame-index
parser has unix timestamp strictly after 2020-01-01 and a channel among the
three recognised values, and the returned list is non-decreasing in micro
timestamp. -/
theorem parse_frame_index_invariants (container : List ℕ)
    (records : List FrameIndexRecord)
    (hok : ParseTRecFrameIndex container = .ok records) :
    (∀ r ∈ records, MinValidTimestamp < r.unixTs ∧
      (r.channel = ChannelVideo1 ∨ r.channel = ChannelAudio ∨ r.channel = ChannelVideo2)) ∧
    records.Sorted tsLE := by
  rw [ParseTRecFrameIndex] at hok
  rcases hfm : findMagic ((container.drop TRecIndexRegionStart).take 0x700000) with _ | idx <;>
    rw [hfm] at hok
  · cases hok
    exact ⟨by simp, List.sorted_nil⟩
  · cases hok
    constructor
    · intro r hr
      have hmem : r ∈ parseRecords (container.drop (TRecIndexRegionStart + idx)) :=
        (List.perm_insertionSort tsLE _).mem_iff.mp hr
      have hk := parseRecords_keep _ _ rfl r hmem
      simpa [keepRecord] using hk
    · exact List.sorted_insertionSort tsLE _

/-- Witness for parse_frame_index_invariants on a short container (no magic
present, parse yields the valid empty result). -/
theorem parse_frame_index_invariants_witness :
    (∀ r ∈ ([] : List FrameIndexRecord), MinValidTimestamp < r.unixTs ∧
      (r.channel = ChannelVideo1 ∨ r.channel = ChannelAudio ∨ r.channel = ChannelVideo2)) ∧
    ([] : List FrameIndexRecord).Sorted tsLE :=
  parse_frame_index_invariants [0, 0, 0] [] (by rfl)

/-! ## Storage manager slice: segment caching and I-frame lookup -/

/-- CachedSegmentInfo: a segment with its frame index, VPS positions and
audio subrecords. -/
structure CachedSegmentInfo where
  segment : SegmentRecord
  frameIndex : List FrameIndexRecord
  vpsPositions : List VPSPosition
  audioFrames : List FrameIndexRecord
deriving Repr, DecidableEq

/-- Ordering of frame records by file offset (audio extraction sort). -/
def offsetLE (a b : FrameIndexRecord) : Prop := a.fileOffset ≤ b.fileOffset

instance : DecidableRel offsetLE := fun a b => Nat.decLe a.fileOffset b.fileOffset

instance : IsTotal FrameIndexRecord offsetLE := ⟨fun a b => Nat.le_total _ _⟩

instance : IsTrans FrameIndexRecord offsetLE := ⟨fun _ _ _ hab hbc => Nat.le_trans hab hbc⟩

/-- Ordering of VPS positions by offset (fallback I-frame sort). -/
def vpsOffLE (a b : VPSPosition) : Prop := a.offset ≤ b.offset

instance : DecidableRel vpsOffLE := fun a b => Int.decLe a.offset b.offset

instance : IsTotal VPSPosition vpsOffLE := ⟨fun a b => Int.le_total _ _⟩

instance : IsTrans VPSPosition vpsOffLE := ⟨fun _ _ _ hab hbc => Int.le_trans hab hbc⟩

/-- The scan of findAudioTimeForOffset: best = the last audio frame whose
offset is ≤ the target, starting from the first frame. -/
def pickBestAudio (targetOffset : ℤ) :
    List FrameIndexRecord → FrameIndexRecord → FrameIndexRecord
  | [], best => best
  | af :: rest, best =>
    if (af.fileOffset : ℤ) ≤ targetOffset then pickBestAudio targetOffset rest af
    else best

/-- findAudioTimeForOffset: anchor a byte offset to the wall clock of the
nearest preceding audio frame; with no audio frames fall back to the coarse
interpolator. -/
def findAudioTimeForOffset (audioFrames : List FrameIndexRecord) (targetOffset : ℤ)
    (seg : SegmentRecord) : ℤ :=
  match audioFrames with
  | [] => CalculatePreciseTime seg targetOffset
  | a0 :: _ => ((pickBestAudio targetOffset audioFrames a0).unixTs : ℤ)

/-- buildSegmentCache on the already-read container inputs: an empty frame
index yields no cached info (the Go function returns nil); otherwise audio
frames are extracted and sorted and each VPS offset inside the data region
gets its interpolated time. -/
def buildSegmentCache (seg : SegmentRecord) (frameIndex : List FrameIndexRecord)
    (vpsOffsets : List ℕ) : Option CachedSegmentInfo :=
  if frameIndex.length = 0 then none
  else
    let audioFrames := List.insertionSort offsetLE
      (frameIndex.filter (fun f => f.channel = ChannelAudio))
    let vpsPositions := (vpsOffsets.filter (fun off => off < TRecIndexRegionStart)).map
      (fun off => (⟨(off : ℤ), findAudioTimeForOffset audioFrames (off : ℤ) seg⟩ : VPSPosition))
    some ⟨seg, frameIndex, vpsPositions, audioFrames⟩

/-- TPSStorage: the segment table plus the cached-segment map (as an
association list keyed by file index). -/
structure TPSStorage where
  segments : List SegmentRecord
  cachedSegments : List (ℤ × CachedSegmentInfo)

/-- Lookup in the cached-segment map. -/
def lookupCached (st : TPSStorage) (fileIndex : ℤ) : Option CachedSegmentInfo :=
  (st.cachedSegments.find? (fun p => p.1 = fileIndex)).map (fun p => p.2)

/-- BuildCache: build every segment cache from the container reads
(frame-index records and VPS offsets per file index) and insert the
successful ones; the segment table itself is never modified. -/
def BuildCache (st : TPSStorage) (containerData : ℤ → List FrameIndexRecord × List ℕ) :
    TPSStorage :=
  { segments := st.segments
    cachedSegments := st.cachedSegments ++ st.segments.filterMap (fun seg =>
      (buildSegmentCache seg (containerData seg.fileIndex).1
        (containerData seg.fileIndex).2).map (fun info => (seg.fileIndex, info))) }

/-- GetFrameIndex: the frame index of a cached segment, nil when absent. -/
def GetFrameIndex (cached : Option CachedSegmentInfo) : List FrameIndexRecord :=
  match cached with
  | some c => c.frameIndex
  | none => []

/-- The fallback of GetIFrameOffsets: key frames of the requested channel
from the frame index, sorted by file offset. -/
def iFrameFallback (frameIndex : List FrameIndexRecord) (channel : ℕ) : List VPSPosition :=
  let videoFrames := frameIndex.filter (fun f => f.channel = channel)
  List.insertionSort vpsOffLE ((videoFrames.filter (fun f => f.frameType = FrameTypeI)).map
    (fun vf => (⟨(vf.fileOffset : ℤ), (vf.unixTs : ℤ)⟩ : VPSPosition)))

/-- GetIFrameOffsets: prefer non-empty cached VPS positions; otherwise fall
back to the frame index of the cached segment (nil when not cached). -/
def GetIFrameOffsets (cached : Option CachedSegmentInfo) (channel : ℕ) : List VPSPosition :=
  match cached with
  | some c =>
    if 0 < c.vpsPositions.length then c.vpsPositions
    else iFrameFallback c.frameIndex channel
  | none => iFrameFallback [] channel

/-- C6 (corrected): a container whose trailing 7 MiB holds no frame-index
magic parses as the valid empty result; BuildCache leaves the segment table
unchanged (the segment is retained); such a segment acquires no cache entry
and produces no I-frame positions; and the time resolver with zero anchors
returns the segment start time (not the coarse interpolation the claim
expects — see the counterexample). -/
theorem empty_frame_index_behaviour :
    (∀ container : List ℕ,
        findMagic ((container.drop TRecIndexRegionStart).take 0x700000) = none →
        ParseTRecFrameIndex container = .ok []) ∧
    (∀ (st : TPSStorage) (data : ℤ → List FrameIndexRecord × List ℕ),
        (BuildCache st data).segments = st.segments) ∧
    (∀ (st : TPSStorage) (data : ℤ → List FrameIndexRecord × List ℕ)
        (seg : SegmentRecord),
        st.cachedSegments = [] →
        (∀ s ∈ st.segments, s.fileIndex = seg.fileIndex → (data s.fileIndex).1 = []) →
        lookupCached (BuildCache st data) seg.fileIndex = none ∧
        ∀ channel, GetIFrameOffsets (lookupCached (BuildCache st data) seg.fileIndex)
          channel = []) ∧
    (∀ (seg : SegmentRecord) (o : ℤ),
        CalculatePreciseTimeFromIFrames [] o seg = seg.startTime) := by
  refine ⟨?_, ?_, ?_, ?_⟩
  · intro container hnone
    rw [ParseTRecFrameIndex]
    rw [hnone]
  · intro st data
    rfl
  · intro st data seg hempty hdata
    have hfind : (st.segments.filterMap (fun s =>
        (buildSegmentCache s (data s.fileIndex).1 (data s.fileIndex).2).map
          (fun info => (s.fileIndex, info)))).find? (fun p => p.1 = seg.fileIndex) = none := by
      apply List.find?_eq_none.mpr
      intro p hp
      rcases List.mem_filterMap.mp hp with ⟨s, hs, hmap⟩
      rcases Option.map_eq_some.mp hmap with ⟨info, hbuild, rfl⟩
      simp only [decide_eq_true_eq]
      intro hfi
      rw [hdata s hs hfi] at hbuild
      simp [buildSegmentCache] at hbuild
    have hnone : lookupCached (BuildCache st data) seg.fileIndex = none := by
      rw [lookupCached, BuildCache]
      simp only [hempty, List.nil_append]
      rw [hfind]
      rfl
    refine ⟨hnone, ?_⟩
    intro channel
    rw [hnone]
    rfl
  · intro seg o
    rfl

/-- C6 counterexample: with zero anchors the resolver returns start_time,
while the coarse interpolator at offset L/2 returns the midpoint — coarse
interpolation is not what the no-anchor path computes. -/
theorem no_anchor_time_resolution_counterexample :
    CalculatePreciseTimeFromIFrames [] 130547712 ⟨0, 2, 100, 200, 0⟩ = 100 ∧
    CalculatePreciseTime ⟨0, 2, 100, 200, 0⟩ 130547712 = 150 ∧
    (100 : ℤ) ≠ 150 := by
  refine ⟨rfl, ?_, by norm_num⟩
  have hL : ¬ ((TRecIndexRegionStart : ℤ) ≤ 0) := by norm_num [TRecIndexRegionStart]
  simp only [CalculatePreciseTime, if_neg hL]
  norm_num [TRecIndexRegionStart]
  rw [show (50 : ℚ) = ((50 : ℤ) : ℚ) by norm_num, i64trunc_intCast]
  norm_num

/-- Witness for empty_frame_index_behaviour at a three-byte container and a
one-segment storage whose container read is empty. -/
theorem empty_frame_index_behaviour_witness :
    ParseTRecFrameIndex [9, 9, 9] = .ok [] ∧
    (BuildCache ⟨[⟨0, 2, 100, 200, 0⟩], []⟩ (fun _ => ([], []))).segments =
      [(⟨0, 2, 100, 200, 0⟩ : SegmentRecord)] ∧
    lookupCached (BuildCache ⟨[⟨0, 2, 100, 200, 0⟩], []⟩ (fun _ => ([], []))) 0 = none ∧
    GetIFrameOffsets (lookupCached
      (BuildCache ⟨[⟨0, 2, 100, 200, 0⟩], []⟩ (fun _ => ([], []))) 0) 2 = [] ∧
    CalculatePreciseTimeFromIFrames [] 7 ⟨0, 2, 100, 200, 0⟩ = 100 := by
  have h := empty_frame_index_behaviour
  refine ⟨h.1 [9, 9, 9] (by rfl), h.2.1 _ _, ?_, ?_, h.2.2.2 ⟨0, 2, 100, 200, 0⟩ 7⟩
  · exact (h.2.2.1 ⟨[⟨0, 2, 100, 200, 0⟩], []⟩ (fun _ => ([], [])) ⟨0, 2, 100, 200, 0⟩
      rfl (by intro s hs _; rfl)).1
  · exact (h.2.2.1 ⟨[⟨0, 2, 100, 200, 0⟩], []⟩ (fun _ => ([], [])) ⟨0, 2, 100, 200, 0⟩
      rfl (by intro s hs _; rfl)).2 2

/-! ## Stream session wire framing (sendVideoFrameWithID) -/

/-- The wire frame_type byte of sendVideoFrameWithID: 2 for VPS, 3 for SPS,
4 for PPS, 1 for the two IDR types, 0 otherwise (P-frames). -/
def frameTypeByte (nalType : ℕ) : ℕ :=
  if nalType = NalVPS then 2
  else if nalType = NalSPS then 3
  else if nalType = NalPPS then 4
  else if nalType = NalIDRWRadl ∨ nalType = NalIDRNLP then 1
  else 0

/-- Go uint64(timestampMs) conversion. -/
def toUInt64 (z : ℤ) : ℕ := (z % (2 ^ 64 : ℤ)).toNat

/-- The binary video frame: magic "H265", big-endian u64 timestamp,
frame_type byte, big-endian u32 length, raw NAL payload. -/
def mkVideoFrame (nalType : ℕ) (nalData : List ℕ) (timestampMs : ℤ) : List ℕ :=
  [0x48, 0x32, 0x36, 0x35] ++ beBytes 8 (toUInt64 timestampMs) ++ [frameTypeByte nalType] ++
  beBytes 4 (nalData.length % 2 ^ 32) ++ nalData

/-- VideoHeader: the VPS/SPS/PPS/IDR prologue read at a seek position. -/
structure VideoHeader where
  vps : List ℕ
  sps : List ℕ
  pps : List ℕ
  idr : List ℕ
  streamStartPos : ℤ
deriving Repr, DecidableEq

/-- One NAL delivered by the stream reader. -/
structure NalResult where
  data : List ℕ
  nalType : ℕ
  timestampMs : ℤ
deriving Repr, DecidableEq

/-- The ordered emission of one streaming run (streamVideoWithAudio step 4
onward): the four header frames at timestamp actual_start_time * 1000, then
the body NALs in reader order. -/
def streamRunEmission (header : VideoHeader) (actualStartTime : ℤ)
    (bodyNals : List NalResult) : List (List ℕ) :=
  mkVideoFrame NalVPS header.vps (actualStartTime * 1000) ::
  mkVideoFrame NalSPS header.sps (actualStartTime * 1000) ::
  mkVideoFrame NalPPS header.pps (actualStartTime * 1000) ::
  mkVideoFrame NalIDRWRadl header.idr (actualStartTime * 1000) ::
  bodyNals.map (fun n => mkVideoFrame n.nalType n.data n.timestampMs)

theorem mkVideoFrame_typeByte (nalType : ℕ) (nalData : List ℕ) (timestampMs : ℤ) :
    (mkVideoFrame nalType nalData timestampMs).get? 12 = some (frameTypeByte nalType) := by
  rw [mkVideoFrame]
  rw [show ([0x48, 0x32, 0x36, 0x35] ++ beBytes 8 (toUInt64 timestampMs) ++
      [frameTypeByte nalType] ++ beBytes 4 (nalData.length % 2 ^ 32) ++ nalData) =
    ([0x48, 0x32, 0x36, 0x35] ++ beBytes 8 (toUInt64 timestampMs)) ++
      ([frameTypeByte nalType] ++ (beBytes 4 (nalData.length % 2 ^ 32) ++ nalData)) by
    simp [List.append_assoc]]
  have hlen : ([0x48, 0x32, 0x36, 0x35] ++ beBytes 8 (toUInt64 timestampMs)).length = 12 := by
    simp [beBytes_length]
  rw [List.get?_append_right (by omega), hlen]
  rfl

theorem mkVideoFrame_timestamp (nalType : ℕ) (nalData : List ℕ) (timestampMs : ℤ) :
    ((mkVideoFrame nalType nalData timestampMs).drop 4).take 8 =
      beBytes 8 (toUInt64 timestampMs) := by
  rw [mkVideoFrame]
  rw [show ([0x48, 0x32, 0x36, 0x35] ++ beBytes 8 (toUInt64 timestampMs) ++
      [frameTypeByte nalType] ++ beBytes 4 (nalData.length % 2 ^ 32) ++ nalData) =
    [0x48, 0x32, 0x36, 0x35] ++ (beBytes 8 (toUInt64 timestampMs) ++
      ([frameTypeByte nalType] ++ (beBytes 4 (nalData.length % 2 ^ 32) ++ nalData))) by
    simp [List.append_assoc]]
  show (beBytes 8 (toUInt64 timestampMs) ++
      ([frameTypeByte nalType] ++ (beBytes 4 (nalData.length % 2 ^ 32) ++ nalData))).take 8 =
    beBytes 8 (toUInt64 timestampMs)
  calc (beBytes 8 (toUInt64 timestampMs) ++
      ([frameTypeByte nalType] ++ (beBytes 4 (nalData.length % 2 ^ 32) ++ nalData))).take 8
      = (beBytes 8 (toUInt64 timestampMs) ++
        ([frameTypeByte nalType] ++ (beBytes 4 (nalData.length % 2 ^ 32) ++ nalData))).take
          (beBytes 8 (toUInt64 timestampMs)).length := by rw [beBytes_length]
  _ = beBytes 8 (toUInt64 timestampMs) := List.take_left _ _

/-- C7 (confirmed): in every streaming run the first four emitted binary
frames carry wire frame_type bytes 2, 3, 4, 1 (VPS, SPS, PPS, IDR in that
order), each with the big-endian timestamp actual_start_time * 1000, and
every P-frame (wire frame_type byte 0) of the run comes strictly after
these four. -/
theorem header_prologue_emission (header : VideoHeader) (t : ℤ) (body : List NalResult) :
    (((streamRunEmission header t body).get? 0).getD []).get? 12 = some 2 ∧
    (((streamRunEmission header t body).get? 1).getD []).get? 12 = some 3 ∧
    (((streamRunEmission header t body).get? 2).getD []).get? 12 = some 4 ∧
    (((streamRunEmission header t body).get? 3).getD []).get? 12 = some 1 ∧
    (∀ i, i < 4 →
      ((((streamRunEmission header t body).get? i).getD []).drop 4).take 8 =
        beBytes 8 (toUInt64 (t * 1000))) ∧
    (∀ i fr, (streamRunEmission header t body).get? i = some fr →
      fr.get? 12 = some 0 → 4 ≤ i) := by
  refine ⟨?_, ?_, ?_, ?_, ?_, ?_⟩
  · simpa [streamRunEmission] using mkVideoFrame_typeByte NalVPS header.vps (t * 1000)
  · simpa [streamRunEmission] using mkVideoFrame_typeByte NalSPS header.sps (t * 1000)
  · simpa [streamRunEmission] using mkVideoFrame_typeByte NalPPS header.pps (t * 1000)
  · simpa [streamRunEmission] using mkVideoFrame_typeByte NalIDRWRadl header.idr (t * 1000)
  · intro i hi
    interval_cases i <;>
      simpa [streamRunEmission] using mkVideoFrame_timestamp _ _ (t * 1000)
  · intro i fr hget hbyte
    by_contra hlt
    push_neg at hlt
    interval_cases i <;>
    · simp only [streamRunEmission, List.get?] at hget
      cases hget
      rw [mkVideoFrame_typeByte] at hbyte
      simp [frameTypeByte, NalVPS, NalSPS, NalPPS, NalIDRWRadl, NalIDRNLP] at hbyte

/-- Witness for header_prologue_emission at a concrete header and body. -/
theorem header_prologue_emission_witness :
    (((streamRunEmission ⟨[64], [66], [68], [38], 900⟩ 1766034449
        [⟨[2], 0, 1766034449000⟩]).get? 0).getD []).get? 12 = some 2 ∧
    ((((streamRunEmission ⟨[64], [66], [68], [38], 900⟩ 1766034449
        [⟨[2], 0, 1766034449000⟩]).get? 2).getD []).drop 4).take 8 =
      beBytes 8 (toUInt64 (1766034449 * 1000)) ∧
    (4 : ℕ) ≤ 4 := by
  have h := header_prologue_emission ⟨[64], [66], [68], [38], 900⟩ 1766034449
    [⟨[2], 0, 1766034449000⟩]
  refine ⟨h.1, h.2.2.2.2.1 2 (by norm_num), ?_⟩
  exact h.2.2.2.2.2 4 (mkVideoFrame 0 [2] 1766034449000) (by rfl)
    (mkVideoFrame_typeByte 0 [2] 1766034449000)

/-! ## WebSocket command handling (HandleWebSocket) -/

/-- The four recognised actions of a WSMessage. -/
inductive WSAction where
  | play
  | pause
  | seek
  | speed
deriving Repr, DecidableEq

/-- WSMessage: the decoded JSON command. The struct has fields action,
channel, timestamp and speed only — a client message carrying a rate field
leaves speed at its zero value. -/
structure WSMsg where
  action : WSAction
  channel : ℤ
  timestamp : ℤ
  speed : ℚ
deriving Repr, DecidableEq

/-- The state of one streaming run as installed by startStream: a fresh
stream id, the playback parameters, the target fps 25·speed, the pacing
interval 1/fps seconds and the reader timestamp step int64(1000/fps) ms
(VideoStreamReader.SetFPS). -/
structure ActiveRun where
  streamID : ℕ
  channel : ℤ
  timestamp : ℤ
  speed : ℚ
  fps : ℚ
  frameInterval : ℚ
  readerIntervalMs : ℤ
deriving Repr, DecidableEq

def startRun (counter : ℕ) (channel timestamp : ℤ) (speed : ℚ) : ActiveRun :=
  { streamID := counter + 1
    channel := channel
    timestamp := timestamp
    speed := speed
    fps := 25 * speed
    frameInterval := 1 / (25 * speed)
    readerIntervalMs := i64trunc (1000 / (25 * speed)) }

/-- Per-session state: the global stream counter and the current run. -/
structure SessionState where
  counter : ℕ
  run : Option ActiveRun
deriving Repr, DecidableEq

/-- The command dispatch of HandleWebSocket: play and seek stop the old run,
substitute speed 1.0 for a zero speed and start a new run; pause stops the
run; a speed command only logs — the session state is left untouched. -/
def handleMessage (st : SessionState) (msg : WSMsg) : SessionState :=
  match msg.action with
  | .play =>
    let speed := if msg.speed = 0 then 1 else msg.speed
    { counter := st.counter + 1
      run := some (startRun st.counter msg.channel msg.timestamp speed) }
  | .pause => { st with run := none }
  | .seek =>
    let speed := if msg.speed = 0 then 1 else msg.speed
    { counter := st.counter + 1
      run := some (startRun st.counter msg.channel msg.timestamp speed) }
  | .speed => st

/-- C1 (code bug, evaluated): a speed command leaves the session state — and
with it the active run and its inter-frame interval — completely unchanged;
at the failing input (run at speed 1, command speed rate 2) the interval
stays 1/25 s instead of becoming 1/(25·2) s. -/
theorem speed_command_ignored :
    (∀ (st : SessionState) (channel timestamp : ℤ) (rate : ℚ),
      handleMessage st ⟨.speed, channel, timestamp, rate⟩ = st) ∧
    handleMessage ⟨1, some (startRun 0 2 1766034449 1)⟩ ⟨.speed, 0, 0, 2⟩ =
      ⟨1, some (startRun 0 2 1766034449 1)⟩ ∧
    (startRun 0 2 1766034449 1).frameInterval = 1 / 25 ∧
    (1 / 25 : ℚ) ≠ 1 / (25 * 2) := by
  refine ⟨fun st c t r => rfl, rfl, ?_, by norm_num⟩
  show (1 : ℚ) / (25 * 1) = 1 / 25
  norm_num

/-- C10 (confirmed): a play or seek command whose speed field is zero (the
decoded value of a missing JSON field) starts the run with speed 1, fps 25,
never with a zero or negative rate. -/
theorem missing_speed_defaults_to_one (st : SessionState) (msg : WSMsg)
    (hact : msg.action = .play ∨ msg.action = .seek) (hsp : msg.speed = 0) :
    ∃ r, (handleMessage st msg).run = some r ∧ r.speed = 1 ∧ r.fps = 25 ∧ 0 < r.fps := by
  obtain ⟨a, c, t, s⟩ := msg
  simp only at hsp
  subst hsp
  rcases hact with h | h <;> simp only at h <;> subst h <;>
    exact ⟨_, rfl, by norm_num [startRun], by norm_num [startRun], by norm_num [startRun]⟩

/-- Witness for missing_speed_defaults_to_one at a concrete play command. -/
theorem missing_speed_defaults_to_one_witness :
    ((WSAction.play = WSAction.play ∨ WSAction.play = WSAction.seek) ∧ (0 : ℚ) = 0) ∧
    ∃ r, (handleMessage ⟨0, none⟩ ⟨.play, 2, 1766034449, 0⟩).run = some r ∧
      r.speed = 1 ∧ r.fps = 25 ∧ 0 < r.fps :=
  ⟨⟨Or.inl rfl, rfl⟩,
    missing_speed_defaults_to_one ⟨0, none⟩ ⟨.play, 2, 1766034449, 0⟩ (Or.inl rfl) rfl⟩

/-! ## Preemption and cancellation (stop / startStream / sendBytesWithID)

The guard state is the session streamID compared under the send mutex; the
events relevant to it are installs of fresh (strictly increasing, from the
atomic counter) stream ids by startStream and send attempts tagged with the
id of the run that issued them. The pacing loop is modelled with explicit
time: reads and writes are instantaneous, an uncancelled sleep lasts one
inter-frame interval, and the cancellation-aware sleep wakes at the
cancellation instant. -/

inductive StreamEvent where
  | install (id : ℕ)
  | attempt (id : ℕ)
deriving Repr, DecidableEq

/-- The stream ids installed over a trace, in order. -/
def installIds : List StreamEvent → List ℕ
  | [] => []
  | .install id :: rest => id :: installIds rest
  | .attempt _ :: rest => installIds rest

/-- The ids of the frames actually written: an attempt passes the guard
exactly when its id equals the currently installed id. -/
def writtenIds : List StreamEvent → ℕ → List ℕ
  | [], _ => []
  | .install id :: rest, _ => writtenIds rest id
  | .attempt id :: rest, cur =>
    if id = cur then id :: writtenIds rest cur else writtenIds rest cur

/-- Well-formed trace: installed ids strictly increase (atomic counter). -/
def WFTrace (tr : List StreamEvent) : Prop := (installIds tr).Pairwise (· < ·)

theorem writtenIds_mono :
    ∀ (tr : List StreamEvent) (cur : ℕ),
      (installIds tr).Pairwise (· < ·) → (∀ id ∈ installIds tr, cur ≤ id) →
      (writtenIds tr cur).Pairwise (· ≤ ·) ∧ ∀ x ∈ writtenIds tr cur, cur ≤ x := by
  intro tr
  induction tr with
  | nil =>
    intro cur _ _
    exact ⟨List.Pairwise.nil, by simp [writtenIds]⟩
  | cons e rest ih =>
    intro cur hpw hlb
    cases e with
    | install id =>
      simp only [installIds] at hpw hlb
      have hrel := (List.pairwise_cons.mp hpw).1
      have hpw2 := (List.pairwise_cons.mp hpw).2
      have hlb2 : ∀ x ∈ installIds rest, id ≤ x := fun x hx => le_of_lt (hrel x hx)
      have hres := ih id hpw2 hlb2
      refine ⟨?_, ?_⟩
      · simpa [writtenIds] using hres.1
      · intro x hx
        simp only [writtenIds] at hx
        exact le_trans (hlb id (by simp)) (hres.2 x hx)
    | attempt id =>
      simp only [installIds] at hpw hlb
      have hres := ih cur hpw hlb
      by_cases h : id = cur
      · subst h
        refine ⟨?_, ?_⟩
        · simp only [writtenIds, if_pos rfl]
          exact List.pairwise_cons.mpr ⟨hres.2, hres.1⟩
        · intro x hx
          simp only [writtenIds, if_pos rfl] at hx
          rcases List.mem_cons.mp hx with rfl | hx2
          · exact le_refl _
          · exact hres.2 x hx2
      · simpa [writtenIds, h] using hres

/-- The paced NAL loop with cancellation instant Tc and inter-frame interval
I: per NAL a cancellation check, an (instantaneous) emission, and a
cancellation-aware sleep. Returns the emission times and the exit time. -/
def runLoop (Tc I : ℚ) : List ℕ → ℚ → List ℚ × ℚ
  | [], t => ([], t)
  | _ :: rest, t =>
    if Tc ≤ t then ([], t)
    else
      let res := runLoop Tc I rest (min (t + I) Tc)
      (t :: res.1, res.2)

/-- C3 (confirmed): in every well-formed trace the written stream ids are
monotonically non-decreasing — once the first frame of a newer run is
written, no frame of an older (smaller-id) run passes the guard — and the
paced loop exits within one inter-frame interval of the cancellation
instant, with every frame emitted strictly before it. -/
theorem preemption_exclusion :
    (∀ tr : List StreamEvent, WFTrace tr → (writtenIds tr 0).Pairwise (· ≤ ·)) ∧
    (∀ (Tc I : ℚ) (nals : List ℕ) (t0 : ℚ), 0 ≤ I → t0 ≤ Tc →
      (runLoop Tc I nals t0).2 ≤ Tc + I ∧ ∀ te ∈ (runLoop Tc I nals t0).1, te < Tc) := by
  constructor
  · intro tr hwf
    exact (writtenIds_mono tr 0 hwf (fun id _ => Nat.zero_le id)).1
  · intro Tc I nals
    induction nals with
    | nil =>
      intro t0 hI ht0
      rw [runLoop]
      exact ⟨by linarith, by simp⟩
    | cons n rest ih =>
      intro t0 hI ht0
      rw [runLoop]
      by_cases hc : Tc ≤ t0
      · rw [if_pos hc]
        exact ⟨by linarith, by simp⟩
      · rw [if_neg hc]
        have ht2 : min (t0 + I) Tc ≤ Tc := min_le_right _ _
        have hres := ih (min (t0 + I) Tc) hI ht2
        refine ⟨hres.1, ?_⟩
        intro te hte
        rcases List.mem_cons.mp hte with rfl | hmem
        · exact lt_of_not_le hc
        · exact hres.2 te hmem

/-- Witness for preemption_exclusion: a concrete preemption trace (the late
attempt of run 1 after run 2 is installed is dropped) and a concrete paced
loop cancelled at time 10. -/
theorem preemption_exclusion_witness :
    (writtenIds [.install 1, .attempt 1, .install 2, .attempt 2, .attempt 1] 0).Pairwise
      (· ≤ ·) ∧
    ((runLoop 10 (1 / 25) [7, 7, 7] 0).2 ≤ 10 + 1 / 25 ∧
      ∀ te ∈ (runLoop 10 (1 / 25) [7, 7, 7] 0).1, te < 10) :=
  ⟨preemption_exclusion.1 [.install 1, .attempt 1, .install 2, .attempt 2, .attempt 1]
      (by unfold WFTrace; decide),
    preemption_exclusion.2 10 (1 / 25) [7, 7, 7] 0 (by norm_num) (by norm_num)⟩

end SeetongDVR
